import Mathlib

/-!
# Shallow embedding of the `payments` transaction-processing core

The embedding follows `src/account.rs` and `src/transaction.rs`:

* `rust_decimal::Decimal` values are modelled as `ℚ` (exact decimal
  arithmetic with `+`, `-`, `≥` and zero; the claims never exercise the
  overflow/precision limits of the 96-bit decimal type).
* `u16` client ids and `u32` transaction ids are modelled as `Nat`
  (the code never does arithmetic on ids, only equality tests and map
  lookups, so wraparound is irrelevant).
* `HashMap` is modelled as a function into `Option`, with `insert`
  overwriting the key — the only observable behaviour the code uses.
* Rust's in-place mutation returning `Result<(), ()>` is modelled by
  returning the new state together with a `Bool` success flag, so that a
  failing call can still report the mutations that happened before the
  error (the ledger insert performed by `Deposit` precedes the amount
  check).
-/

namespace Payments

/-- `DisputedState` from `src/transaction.rs`. -/
inductive DisputedState
  | Undisputed
  | Disputed
  | Resolved
  | Chargebacked
  deriving DecidableEq, Repr

/-- `TransactionRecord` from `src/transaction.rs`: the ledger entry. -/
structure TransactionRecord where
  amount : ℚ
  client : Nat
  disputed : DisputedState
  deriving DecidableEq, Repr

/-- `Transaction` from `src/transaction.rs`. -/
inductive Transaction
  | Deposit (client : Nat) (tx : Nat) (amount : ℚ)
  | Withdrawal (client : Nat) (tx : Nat) (amount : ℚ)
  | Dispute (client : Nat) (tx : Nat)
  | Resolve (client : Nat) (tx : Nat)
  | Chargeback (client : Nat) (tx : Nat)
  deriving DecidableEq, Repr

/-- `Transaction::tx` from `src/transaction.rs`. -/
def Transaction.tx : Transaction → Nat
  | .Deposit _ tx _ => tx
  | .Withdrawal _ tx _ => tx
  | .Dispute _ tx => tx
  | .Resolve _ tx => tx
  | .Chargeback _ tx => tx

/-- `Transaction::client` from `src/transaction.rs`. -/
def Transaction.client : Transaction → Nat
  | .Deposit c _ _ => c
  | .Withdrawal c _ _ => c
  | .Dispute c _ => c
  | .Resolve c _ => c
  | .Chargeback c _ => c

/-- The ledger `HashMap<u32, TransactionRecord>` as a map. -/
def Ledger : Type := Nat → Option TransactionRecord

/-- `HashMap::insert`: unconditional insert, overwriting any prior entry. -/
def Ledger.insert (l : Ledger) (tx : Nat) (r : TransactionRecord) : Ledger :=
  fun t => if t = tx then some r else l t

/-- `Account` from `src/account.rs`. -/
structure Account where
  client : Nat
  available : ℚ
  held : ℚ
  locked : Bool
  deriving DecidableEq, Repr

/-- `Account::new`. -/
def Account.new (client : Nat) : Account :=
  { client := client, available := 0, held := 0, locked := false }

/-- `Account::deposit` (private helper): succeeds iff `amount ≥ 0`. -/
def Account.deposit (a : Account) (amount : ℚ) : Account × Bool :=
  if amount ≥ 0 then
    ({ a with available := a.available + amount }, true)
  else
    (a, false)

/-- `Account::withdrawal` (private helper): succeeds iff `amount ≥ 0` and
`available ≥ amount`. -/
def Account.withdrawal (a : Account) (amount : ℚ) : Account × Bool :=
  if amount ≥ 0 ∧ a.available ≥ amount then
    ({ a with available := a.available - amount }, true)
  else
    (a, false)

/-- `Account::dispute` (private helper): infallible, no floor check. -/
def Account.dispute (a : Account) (amount : ℚ) : Account :=
  { a with available := a.available - amount, held := a.held + amount }

/-- `Account::resolve` (private helper): infallible. -/
def Account.resolve (a : Account) (amount : ℚ) : Account :=
  { a with held := a.held - amount, available := a.available + amount }

/-- `Account::chargeback` (private helper): infallible, sets `locked`. -/
def Account.chargeback (a : Account) (amount : ℚ) : Account :=
  { a with held := a.held - amount, locked := true }

/-- `dependent_transaction` from `src/account.rs`: looks up the entry for
`transaction.tx()`, returning it only when it is currently `Disputed` and
the clients match. -/
def dependentTransaction (t : Transaction) (l : Ledger) :
    Option TransactionRecord :=
  match l t.tx with
  | some existing =>
      if existing.disputed = DisputedState.Disputed ∧ t.client = existing.client
      then some existing
      else none
  | none => none

/-- `Account::process` from `src/account.rs`.  Returns the new account, the
new ledger, and the success flag (`Result<(), ()>` in Rust).  The ledger
insert for a `Deposit` happens before the amount check, exactly as in the
source. -/
def Account.process (a : Account) (t : Transaction) (l : Ledger) :
    (Account × Ledger) × Bool :=
  let l₁ : Ledger :=
    match t with
    | .Deposit client tx amount =>
        l.insert tx { amount := amount, client := client,
                      disputed := DisputedState.Undisputed }
    | _ => l
  match t with
  | .Deposit _ _ amount =>
      (((a.deposit amount).1, l₁), (a.deposit amount).2)
  | .Withdrawal _ _ amount =>
      (((a.withdrawal amount).1, l₁), (a.withdrawal amount).2)
  | .Dispute client tx =>
      match l₁ tx with
      | none => ((a, l₁), false)
      | some dep =>
          if dep.disputed ≠ DisputedState.Undisputed ∨ dep.client ≠ client then
            ((a, l₁), false)
          else
            ((a.dispute dep.amount,
              l₁.insert tx { dep with disputed := DisputedState.Disputed }),
             true)
  | .Resolve _ _ =>
      match dependentTransaction t l₁ with
      | none => ((a, l₁), false)
      | some dep =>
          ((a.resolve dep.amount,
            l₁.insert t.tx { dep with disputed := DisputedState.Resolved }),
           true)
  | .Chargeback _ _ =>
      match dependentTransaction t l₁ with
      | none => ((a, l₁), false)
      | some dep =>
          ((a.chargeback dep.amount,
            l₁.insert t.tx { dep with disputed := DisputedState.Chargebacked }),
           true)

/-- `TransactionProcessor` from `src/transaction.rs`: the account table and
the shared ledger. -/
structure TransactionProcessor where
  accounts : Nat → Option Account
  transactions : Ledger

/-- `TransactionProcessor::new`. -/
def TransactionProcessor.new : TransactionProcessor :=
  { accounts := fun _ => none, transactions := fun _ => none }

/-- `TransactionProcessor::process` from `src/transaction.rs`: delegate to
the existing account, or construct a fresh one and commit it to the table
only when the delegated call succeeds.  The ledger mutation persists either
way, because `transactions` is a field of the processor. -/
def TransactionProcessor.process (p : TransactionProcessor)
    (t : Transaction) : TransactionProcessor × Bool :=
  match p.accounts t.client with
  | some a =>
      let r := a.process t p.transactions
      ({ accounts := fun c => if c = t.client then some r.1.1 else p.accounts c,
         transactions := r.1.2 }, r.2)
  | none =>
      let r := (Account.new t.client).process t p.transactions
      if r.2 then
        ({ accounts := fun c => if c = t.client then some r.1.1 else p.accounts c,
           transactions := r.1.2 }, r.2)
      else
        ({ accounts := p.accounts, transactions := r.1.2 }, r.2)

/-- Folding a whole input stream through the processor, in order, dropping
each per-transaction result as `process_transactions` does. -/
def TransactionProcessor.processAll (p : TransactionProcessor) :
    List Transaction → TransactionProcessor
  | [] => p
  | t :: ts => ((p.process t).1).processAll ts

/-! ## Derived observations used by the claims -/

/-- The available balance `Account::withdrawal` would check for client `c`:
the stored account's `available`, or zero for the fresh account the
processor would construct. -/
def availableOf (p : TransactionProcessor) (c : Nat) : ℚ :=
  match p.accounts c with
  | some a => a.available
  | none => 0

/-- Whether a stream contains a `Deposit` carrying transaction id `tx`. -/
def containsDepositTx (tx : Nat) (ts : List Transaction) : Bool :=
  ts.any fun t =>
    match t with
    | .Deposit _ txd _ => txd = tx
    | _ => false

/-- The ledger holds an entry under `tx` whose dispute state is not
`Undisputed`. -/
def NonUndisputed (l : Ledger) (tx : Nat) : Prop :=
  ∃ e, l tx = some e ∧ e.disputed ≠ DisputedState.Undisputed

/-- Every `Dispute` against `tx` in the stream fails when the stream is
replayed from `p`. -/
def noDisputeSucceeds (p : TransactionProcessor) (tx : Nat) :
    List Transaction → Prop
  | [] => True
  | t :: ts =>
      ((∃ c, t = Transaction.Dispute c tx) → (p.process t).2 = false) ∧
      noDisputeSucceeds (p.process t).1 tx ts

/-- Some transaction carrying client id `c` succeeds when the stream is
replayed from `p`. -/
def someSuccessFor (p : TransactionProcessor) (c : Nat) :
    List Transaction → Prop
  | [] => False
  | t :: ts =>
      (t.client = c ∧ (p.process t).2 = true) ∨
      someSuccessFor (p.process t).1 c ts

/-- The signed amount a transaction contributes to client `c`'s available
balance when its processing result is `ok`: successful deposits count
positively, successful withdrawals negatively. -/
def netContribution (c : Nat) (t : Transaction) (ok : Bool) : ℚ :=
  if t.client = c ∧ ok = true then
    match t with
    | .Deposit _ _ amt => amt
    | .Withdrawal _ _ amt => -amt
    | _ => 0
  else 0

/-- Sum of successful deposit amounts minus successful withdrawal amounts
for client `c`, accumulated along the replay of the stream from `p`. -/
def netFor (p : TransactionProcessor) (c : Nat) : List Transaction → ℚ
  | [] => 0
  | t :: ts =>
      netContribution c t (p.process t).2 + netFor (p.process t).1 c ts

/-- Whether a transaction is a `Deposit` or a `Withdrawal`. -/
def Transaction.isDepositOrWithdrawal : Transaction → Bool
  | .Deposit _ _ _ => true
  | .Withdrawal _ _ _ => true
  | _ => false

/-! ## Concrete fixtures used by witnesses -/

/-- A ledger holding one undisputed deposit of 5 by client 0 under tx 0. -/
def ledgerU : Ledger :=
  fun t => if t = 0 then some ⟨5, 0, DisputedState.Undisputed⟩ else none

/-- A ledger holding one disputed deposit of 5 by client 0 under tx 0. -/
def ledgerD : Ledger :=
  fun t => if t = 0 then some ⟨5, 0, DisputedState.Disputed⟩ else none

/-- Client 0 with 5 available. -/
def acct5 : Account := { client := 0, available := 5, held := 0, locked := false }

/-- Client 0 with 5 held. -/
def acctH5 : Account := { client := 0, available := 0, held := 5, locked := false }

/-- The processor after a single successful deposit(0, 0, 5). -/
def depositState : TransactionProcessor :=
  (TransactionProcessor.new.process (.Deposit 0 0 5)).1

/-- The processor after deposit(0, 0, 5), dispute(0, 0), chargeback(0, 0):
client 0's account is locked with zero balances. -/
def lockedState : TransactionProcessor :=
  (((TransactionProcessor.new.process (.Deposit 0 0 5)).1.process
      (.Dispute 0 0)).1.process (.Chargeback 0 0)).1

/-! ## C1: dispute semantics of `Account::process` -/

/-- C1: a `Dispute(client, tx)` applied by `Account::process` fails when the
ledger has no entry under `tx`, when the entry's stored client differs from
the transaction's client, or when the entry is not `Undisputed`; otherwise
it succeeds, moves the stored amount from `available` to `held` (with no
floor check on `available`), and marks the entry `Disputed`. -/
theorem dispute_spec (a : Account) (l : Ledger) (c tx : Nat) :
    (l tx = none → (a.process (.Dispute c tx) l).2 = false) ∧
    (∀ e, l tx = some e →
      (e.client ≠ c ∨ e.disputed ≠ DisputedState.Undisputed) →
      (a.process (.Dispute c tx) l).2 = false) ∧
    (∀ e, l tx = some e → e.client = c → e.disputed = DisputedState.Undisputed →
      (a.process (.Dispute c tx) l).2 = true ∧
      (a.process (.Dispute c tx) l).1.1 =
        { a with available := a.available - e.amount,
                 held := a.held + e.amount } ∧
      (a.process (.Dispute c tx) l).1.2 tx =
        some { e with disputed := DisputedState.Disputed }) := by
  refine ⟨fun h => ?_, fun e he hne => ?_, fun e he hc hd => ?_⟩
  · simp [Account.process, h]
  · simp only [Account.process, he]
    split
    · rfl
    · tauto
  · simp only [Account.process, he]
    split
    · tauto
    · simp [Account.dispute, Ledger.insert]

/-- Witness for C1 at a concrete account and ledger. -/
theorem dispute_spec_witness :
    (Account.process acct5 (.Dispute 0 0) ledgerU).2 = true ∧
    (Account.process acct5 (.Dispute 0 0) ledgerU).1.1 =
      { acct5 with available := acct5.available - 5, held := acct5.held + 5 } ∧
    (Account.process acct5 (.Dispute 0 0) ledgerU).1.2 0 =
      some { amount := 5, client := 0, disputed := DisputedState.Disputed } :=
  (dispute_spec acct5 ledgerU 0 0).2.2 ⟨5, 0, DisputedState.Undisputed⟩ rfl rfl rfl

/-! ## C2: resolve semantics of `Account::process` -/

/-- C2: a `Resolve(client, tx)` applied by `Account::process` succeeds iff
the ledger entry under `tx` exists, is currently `Disputed`, and its stored
client equals the transaction's client; on success it moves the stored
amount from `held` back to `available` and marks the entry `Resolved`; on
failure it changes nothing. -/
theorem resolve_spec (a : Account) (l : Ledger) (c tx : Nat) :
    ((a.process (.Resolve c tx) l).2 = true ↔
      ∃ e, l tx = some e ∧ e.disputed = DisputedState.Disputed ∧ e.client = c) ∧
    (∀ e, l tx = some e → e.disputed = DisputedState.Disputed → e.client = c →
      (a.process (.Resolve c tx) l).1.1 =
        { a with held := a.held - e.amount,
                 available := a.available + e.amount } ∧
      (a.process (.Resolve c tx) l).1.2 =
        l.insert tx { e with disputed := DisputedState.Resolved }) ∧
    ((a.process (.Resolve c tx) l).2 = false →
      (a.process (.Resolve c tx) l).1.1 = a ∧
      (a.process (.Resolve c tx) l).1.2 = l) := by
  cases h : l tx with
  | none =>
      refine ⟨?_, ?_, ?_⟩
      · simp [Account.process, dependentTransaction, Transaction.tx, h]
      · intro e he
        exact absurd he (by simp)
      · intro _
        simp [Account.process, dependentTransaction, Transaction.tx, h]
  | some e =>
      by_cases hcond : e.disputed = DisputedState.Disputed ∧ e.client = c
      · refine ⟨?_, ?_, ?_⟩
        · simp only [Account.process, dependentTransaction, Transaction.tx,
            Transaction.client, h]
          rw [if_pos ⟨hcond.1, hcond.2.symm⟩]
          simp only [true_iff]
          exact ⟨e, rfl, hcond.1, hcond.2⟩
        · intro e' he'
          injection he' with hee
          subst hee
          intro _ _
          simp only [Account.process, dependentTransaction, Transaction.tx,
            Transaction.client, h]
          rw [if_pos ⟨hcond.1, hcond.2.symm⟩]
          exact ⟨rfl, rfl⟩
        · intro hfail
          exfalso
          revert hfail
          simp only [Account.process, dependentTransaction, Transaction.tx,
            Transaction.client, h]
          rw [if_pos ⟨hcond.1, hcond.2.symm⟩]
          simp
      · refine ⟨?_, ?_, ?_⟩
        · simp only [Account.process, dependentTransaction, Transaction.tx,
            Transaction.client, h]
          rw [if_neg (fun hand => hcond ⟨hand.1, hand.2.symm⟩)]
          simp only [Bool.false_eq_true, false_iff]
          rintro ⟨e', he', hd', hc'⟩
          injection he' with hee
          subst hee
          exact hcond ⟨hd', hc'⟩
        · intro e' he' hd' hc'
          injection he' with hee
          subst hee
          exact absurd ⟨hd', hc'⟩ hcond
        · intro _
          simp only [Account.process, dependentTransaction, Transaction.tx,
            Transaction.client, h]
          rw [if_neg (fun hand => hcond ⟨hand.1, hand.2.symm⟩)]
          exact ⟨rfl, rfl⟩

/-- Witness for C2 at a concrete account and ledger. -/
theorem resolve_spec_witness :
    (Account.process acctH5 (.Resolve 0 0) ledgerD).1.1 =
      { acctH5 with held := acctH5.held - 5,
                    available := acctH5.available + 5 } ∧
    (Account.process acctH5 (.Resolve 0 0) ledgerD).1.2 =
      Ledger.insert ledgerD 0 { amount := 5, client := 0,
                                disputed := DisputedState.Resolved } :=
  (resolve_spec acctH5 ledgerD 0 0).2.1 ⟨5, 0, DisputedState.Disputed⟩ rfl rfl rfl

/-! ## C3: chargeback semantics of `Account::process` -/

/-- C3: a `Chargeback(client, tx)` applied by `Account::process` succeeds
iff the ledger entry under `tx` exists, is currently `Disputed`, and its
stored client equals the transaction's client; on success it decreases
`held` by the stored amount, sets `locked`, and marks the entry
`Chargebacked`; on failure it changes nothing. -/
theorem chargeback_spec (a : Account) (l : Ledger) (c tx : Nat) :
    ((a.process (.Chargeback c tx) l).2 = true ↔
      ∃ e, l tx = some e ∧ e.disputed = DisputedState.Disputed ∧ e.client = c) ∧
    (∀ e, l tx = some e → e.disputed = DisputedState.Disputed → e.client = c →
      (a.process (.Chargeback c tx) l).1.1 =
        { a with held := a.held - e.amount, locked := true } ∧
      (a.process (.Chargeback c tx) l).1.2 =
        l.insert tx { e with disputed := DisputedState.Chargebacked }) ∧
    ((a.process (.Chargeback c tx) l).2 = false →
      (a.process (.Chargeback c tx) l).1.1 = a ∧
      (a.process (.Chargeback c tx) l).1.2 = l) := by
  cases h : l tx with
  | none =>
      refine ⟨?_, ?_, ?_⟩
      · simp [Account.process, dependentTransaction, Transaction.tx, h]
      · intro e he
        exact absurd he (by simp)
      · intro _
        simp [Account.process, dependentTransaction, Transaction.tx, h]
  | some e =>
      by_cases hcond : e.disputed = DisputedState.Disputed ∧ e.client = c
      · refine ⟨?_, ?_, ?_⟩
        · simp only [Account.process, dependentTransaction, Transaction.tx,
            Transaction.client, h]
          rw [if_pos ⟨hcond.1, hcond.2.symm⟩]
          simp only [true_iff]
          exact ⟨e, rfl, hcond.1, hcond.2⟩
        · intro e' he'
          injection he' with hee
          subst hee
          intro _ _
          simp only [Account.process, dependentTransaction, Transaction.tx,
            Transaction.client, h]
          rw [if_pos ⟨hcond.1, hcond.2.symm⟩]
          exact ⟨rfl, rfl⟩
        · intro hfail
          exfalso
          revert hfail
          simp only [Account.process, dependentTransaction, Transaction.tx,
            Transaction.client, h]
          rw [if_pos ⟨hcond.1, hcond.2.symm⟩]
          simp
      · refine ⟨?_, ?_, ?_⟩
        · simp only [Account.process, dependentTransaction, Transaction.tx,
            Transaction.client, h]
          rw [if_neg (fun hand => hcond ⟨hand.1, hand.2.symm⟩)]
          simp only [Bool.false_eq_true, false_iff]
          rintro ⟨e', he', hd', hc'⟩
          injection he' with hee
          subst hee
          exact hcond ⟨hd', hc'⟩
        · intro e' he' hd' hc'
          injection he' with hee
          subst hee
          exact absurd ⟨hd', hc'⟩ hcond
        · intro _
          simp only [Account.process, dependentTransaction, Transaction.tx,
            Transaction.client, h]
          rw [if_neg (fun hand => hcond ⟨hand.1, hand.2.symm⟩)]
          exact ⟨rfl, rfl⟩

/-- Witness for C3 at a concrete account and ledger. -/
theorem chargeback_spec_witness :
    (Account.process acctH5 (.Chargeback 0 0) ledgerD).1.1 =
      { acctH5 with held := acctH5.held - 5, locked := true } ∧
    (Account.process acctH5 (.Chargeback 0 0) ledgerD).1.2 =
      Ledger.insert ledgerD 0 { amount := 5, client := 0,
                                disputed := DisputedState.Chargebacked } :=
  (chargeback_spec acctH5 ledgerD 0 0).2.1 ⟨5, 0, DisputedState.Disputed⟩ rfl rfl rfl

/-! ## C8: withdrawal semantics of `Account::process` -/

/-- C8: a `Withdrawal(client, tx, amount)` applied by `Account::process`
succeeds and decreases `available` by `amount` iff `amount ≥ 0` and
`available ≥ amount`; otherwise it fails with no state change; in either
case the ledger is untouched, so no entry is created under `tx`. -/
theorem withdrawal_spec (a : Account) (l : Ledger) (c tx : Nat) (amt : ℚ) :
    ((a.process (.Withdrawal c tx amt) l).2 = true ↔
      (amt ≥ 0 ∧ a.available ≥ amt)) ∧
    ((a.process (.Withdrawal c tx amt) l).2 = true →
      (a.process (.Withdrawal c tx amt) l).1.1 =
        { a with available := a.available - amt }) ∧
    ((a.process (.Withdrawal c tx amt) l).2 = false →
      (a.process (.Withdrawal c tx amt) l).1.1 = a) ∧
    (a.process (.Withdrawal c tx amt) l).1.2 = l := by
  by_cases h : amt ≥ 0 ∧ a.available ≥ amt
  · refine ⟨?_, ?_, ?_, rfl⟩
    · simp [Account.process, Account.withdrawal, h]
    · intro _
      simp [Account.process, Account.withdrawal, h]
    · intro hf
      exfalso
      revert hf
      simp [Account.process, Account.withdrawal, h]
  · refine ⟨?_, ?_, ?_, rfl⟩
    · simp [Account.process, Account.withdrawal, h]
    · intro ht
      exfalso
      revert ht
      simp [Account.process, Account.withdrawal, h]
    · intro _
      simp [Account.process, Account.withdrawal, h]

/-- Witness for C8 at a concrete successful withdrawal. -/
theorem withdrawal_spec_witness :
    (Account.process acct5 (.Withdrawal 0 1 3) ledgerU).1.1 =
      { acct5 with available := acct5.available - 3 } ∧
    (Account.process acct5 (.Withdrawal 0 1 3) ledgerU).1.2 = ledgerU :=
  ⟨(withdrawal_spec acct5 ledgerU 0 1 3).2.1 rfl,
   (withdrawal_spec acct5 ledgerU 0 1 3).2.2.2⟩

/-! ## C10: a failing `TransactionProcessor::process` leaves accounts alone -/

/-- When `Account::process` fails, the account itself is unchanged (the
ledger may have been written for a deposit, but every balance mutation is
guarded behind the error paths). -/
theorem account_process_fail_id (a : Account) (t : Transaction) (l : Ledger)
    (h : (a.process t l).2 = false) : (a.process t l).1.1 = a := by
  cases t with
  | Deposit c tx amt =>
      revert h
      simp only [Account.process, Account.deposit]
      split <;> simp
  | Withdrawal c tx amt =>
      revert h
      simp only [Account.process, Account.withdrawal]
      split <;> simp
  | Dispute c tx =>
      revert h
      cases hl : l tx with
      | none => simp [Account.process, hl]
      | some dep =>
          simp only [Account.process, hl]
          split <;> simp
  | Resolve c tx =>
      revert h
      cases hd : dependentTransaction (.Resolve c tx) l with
      | none => simp [Account.process, hd]
      | some dep => simp [Account.process, hd]
  | Chargeback c tx =>
      revert h
      cases hd : dependentTransaction (.Chargeback c tx) l with
      | none => simp [Account.process, hd]
      | some dep => simp [Account.process, hd]

/-- C10: whenever `TransactionProcessor::process` returns `Err`, the
account table — hence the `available`, `held` and `locked` fields of every
account in it — is exactly what it was before the call; only the ledger may
have changed. -/
theorem processor_err_preserves_accounts (p : TransactionProcessor)
    (t : Transaction) (h : (p.process t).2 = false) :
    (p.process t).1.accounts = p.accounts := by
  cases hp : p.accounts t.client with
  | some a =>
      have hfail : (a.process t p.transactions).2 = false := by
        revert h
        simp only [TransactionProcessor.process, hp]
        exact fun h => h
      have ha := account_process_fail_id a t p.transactions hfail
      funext c
      simp only [TransactionProcessor.process, hp]
      by_cases hc : c = t.client
      · subst hc
        simp [ha, hp]
      · simp [hc]
  | none =>
      have hfail : ((Account.new t.client).process t p.transactions).2 = false := by
        revert h
        simp only [TransactionProcessor.process, hp]
        split <;> exact fun h => h
      simp [TransactionProcessor.process, hp, hfail]

/-- Witness for C10 at a concrete failing transaction. -/
theorem processor_err_preserves_accounts_witness :
    (TransactionProcessor.new.process (.Dispute 0 0)).1.accounts =
      TransactionProcessor.new.accounts :=
  processor_err_preserves_accounts TransactionProcessor.new (.Dispute 0 0) rfl

/-! ## C5: the effect of invalid amounts -/

/-- C5 counterexample: a negative-amount deposit fails, yet the processor
state is not the same afterwards — the ledger gained an entry under the
deposit's tx id, because `Account::process` inserts the record before the
amount check. -/
theorem invalid_deposit_ledger_cex :
    (TransactionProcessor.new.process (.Deposit 0 0 (-1))).2 = false ∧
    (TransactionProcessor.new.process (.Deposit 0 0 (-1))).1.transactions 0 =
      some { amount := -1, client := 0,
             disputed := DisputedState.Undisputed } ∧
    TransactionProcessor.new.transactions 0 = none :=
  ⟨rfl, rfl, rfl⟩

/-- C5 amended: a negative-amount deposit or an invalid withdrawal
(negative, or exceeding available funds) fails and leaves every account
unchanged; a failing withdrawal also leaves the ledger unchanged, but a
negative deposit still inserts (or overwrites) the ledger entry under its
tx id. -/
theorem invalid_amount_amended (p : TransactionProcessor) (c tx : Nat)
    (amt : ℚ) :
    (amt < 0 →
      (p.process (.Deposit c tx amt)).2 = false ∧
      (p.process (.Deposit c tx amt)).1.accounts = p.accounts ∧
      (p.process (.Deposit c tx amt)).1.transactions =
        p.transactions.insert tx
          { amount := amt, client := c,
            disputed := DisputedState.Undisputed }) ∧
    ((amt < 0 ∨ availableOf p c < amt) →
      (p.process (.Withdrawal c tx amt)).2 = false ∧
      (p.process (.Withdrawal c tx amt)).1.accounts = p.accounts ∧
      (p.process (.Withdrawal c tx amt)).1.transactions = p.transactions) := by
  constructor
  · intro hneg
    have hdep : ¬ amt ≥ 0 := not_le.mpr hneg
    cases hp : p.accounts c with
    | some a =>
        refine ⟨?_, ?_, ?_⟩
        · simp [TransactionProcessor.process, Transaction.client, hp,
            Account.process, Account.deposit, hdep]
        · funext c'
          by_cases hc : c' = c
          · subst hc
            simp [TransactionProcessor.process, Transaction.client, hp,
              Account.process, Account.deposit, hdep]
          · simp [TransactionProcessor.process, Transaction.client, hp, hc]
        · simp [TransactionProcessor.process, Transaction.client, hp,
            Account.process, Account.deposit, hdep]
    | none =>
        refine ⟨?_, ?_, ?_⟩ <;>
          simp [TransactionProcessor.process, Transaction.client, hp,
            Account.process, Account.deposit, hdep]
  · intro hw
    cases hp : p.accounts c with
    | some a =>
        have hfail : ¬ (amt ≥ 0 ∧ a.available ≥ amt) := by
          rcases hw with h | h
          · exact fun hand => absurd hand.1 (not_le.mpr h)
          · simp only [availableOf, hp] at h
            exact fun hand => absurd hand.2 (not_le.mpr h)
        refine ⟨?_, ?_, ?_⟩
        · simp [TransactionProcessor.process, Transaction.client, hp,
            Account.process, Account.withdrawal, hfail]
        · funext c'
          by_cases hc : c' = c
          · subst hc
            simp [TransactionProcessor.process, Transaction.client, hp,
              Account.process, Account.withdrawal, hfail]
          · simp [TransactionProcessor.process, Transaction.client, hp, hc]
        · simp [TransactionProcessor.process, Transaction.client, hp,
            Account.process, Account.withdrawal, hfail]
    | none =>
        have hfail : ¬ (amt ≥ 0 ∧ (0:ℚ) ≥ amt) := by
          rcases hw with h | h
          · exact fun hand => absurd hand.1 (not_le.mpr h)
          · simp only [availableOf, hp] at h
            exact fun hand => absurd hand.2 (not_le.mpr h)
        refine ⟨?_, ?_, ?_⟩ <;>
          simp [TransactionProcessor.process, Transaction.client, hp,
            Account.process, Account.withdrawal, Account.new, hfail]

/-- Witness for the amended C5 at a concrete negative deposit. -/
theorem invalid_amount_amended_witness :
    (TransactionProcessor.new.process (.Deposit 0 0 (-1))).2 = false ∧
    (TransactionProcessor.new.process (.Deposit 0 0 (-1))).1.accounts =
      TransactionProcessor.new.accounts ∧
    (TransactionProcessor.new.process (.Deposit 0 0 (-1))).1.transactions =
      Ledger.insert TransactionProcessor.new.transactions 0
        { amount := -1, client := 0, disputed := DisputedState.Undisputed } :=
  (invalid_amount_amended TransactionProcessor.new 0 0 (-1)).1 (by norm_num)

/-! ## C6: lazy account creation -/

/-- C6 counterexample: client 0's very first transaction (a negative
deposit) fails, yet client 0 still appears in the table after a later
successful deposit — the failed first transaction only discards the
still-zeroed account, it does not bar the client. -/
theorem first_failure_client_appears_cex :
    (TransactionProcessor.new.process (.Deposit 0 0 (-1))).2 = false ∧
    ((TransactionProcessor.new.process (.Deposit 0 0 (-1))).1.process
        (.Deposit 0 1 5)).2 = true ∧
    (((TransactionProcessor.new.process (.Deposit 0 0 (-1))).1.process
        (.Deposit 0 1 5)).1.accounts 0).isSome = true :=
  ⟨rfl, rfl, rfl⟩

/-- One processing step creates or keeps an entry for client `c` exactly
when the client already had one, or the transaction carried client `c` and
succeeded. -/
theorem step_isSome (p : TransactionProcessor) (t : Transaction) (c : Nat) :
    (((p.process t).1.accounts c).isSome = true ↔
      ((p.accounts c).isSome = true ∨
        (t.client = c ∧ (p.process t).2 = true))) := by
  cases hp : p.accounts t.client with
  | some a =>
      by_cases hc : c = t.client
      · subst hc
        simp [TransactionProcessor.process, hp]
      · have hc' : ¬ t.client = c := fun h => hc h.symm
        simp [TransactionProcessor.process, hp, hc, hc']
  | none =>
      by_cases hc : c = t.client
      · subst hc
        by_cases hr : ((Account.new t.client).process t p.transactions).2 = true
        · simp [TransactionProcessor.process, hp, hr]
        · simp only [Bool.not_eq_true] at hr
          simp [TransactionProcessor.process, hp, hr]
      · have hc' : ¬ t.client = c := fun h => hc h.symm
        by_cases hr : ((Account.new t.client).process t p.transactions).2 = true
        · simp [TransactionProcessor.process, hp, hr, hc, hc']
        · simp only [Bool.not_eq_true] at hr
          simp [TransactionProcessor.process, hp, hr, hc, hc']

/-- A client has an entry after replaying a stream exactly when it had one
before, or some transaction carrying that client id succeeded during the
replay. -/
theorem processAll_isSome (c : Nat) (ts : List Transaction) :
    ∀ p : TransactionProcessor,
      (((p.processAll ts).accounts c).isSome = true ↔
        ((p.accounts c).isSome = true ∨ someSuccessFor p c ts)) := by
  induction ts with
  | nil =>
      intro p
      simp [TransactionProcessor.processAll, someSuccessFor]
  | cons t ts ih =>
      intro p
      simp only [TransactionProcessor.processAll, someSuccessFor]
      rw [ih, step_isSome]
      tauto

/-- C6 amended: for a transaction whose client has no account yet,
`TransactionProcessor::process` constructs a fresh `Account`, delegates to
it, and commits it to the table only when the delegated call succeeds;
consequently a client appears in the final report iff at least one
transaction carrying that client id succeeded — not necessarily the very
first one. -/
theorem fresh_account_commit (p : TransactionProcessor) (t : Transaction)
    (h : p.accounts t.client = none) :
    ((p.process t).2 =
      ((Account.new t.client).process t p.transactions).2) ∧
    ((p.process t).2 = true →
      (p.process t).1.accounts t.client =
        some ((Account.new t.client).process t p.transactions).1.1) ∧
    ((p.process t).2 = false → (p.process t).1.accounts = p.accounts) ∧
    (∀ c ts,
      (((TransactionProcessor.new.processAll ts).accounts c).isSome = true ↔
        someSuccessFor TransactionProcessor.new c ts)) := by
  refine ⟨?_, ?_, ?_, ?_⟩
  · simp only [TransactionProcessor.process, h]
    split <;> rfl
  · intro ht
    have hr : ((Account.new t.client).process t p.transactions).2 = true := by
      revert ht
      simp only [TransactionProcessor.process, h]
      split <;> exact fun ht => ht
    simp [TransactionProcessor.process, h, hr]
  · intro ht
    have hr : ((Account.new t.client).process t p.transactions).2 = false := by
      revert ht
      simp only [TransactionProcessor.process, h]
      split <;> exact fun ht => ht
    simp [TransactionProcessor.process, h, hr]
  · intro c ts
    rw [processAll_isSome]
    simp [TransactionProcessor.new]

/-- Witness for the amended C6 at a concrete first deposit. -/
theorem fresh_account_commit_witness :
    ((TransactionProcessor.new.process (.Deposit 0 0 5)).2 =
      ((Account.new (Transaction.Deposit 0 0 5).client).process
        (.Deposit 0 0 5) TransactionProcessor.new.transactions).2) ∧
    ((TransactionProcessor.new.process (.Deposit 0 0 5)).2 = true →
      (TransactionProcessor.new.process (.Deposit 0 0 5)).1.accounts
          (Transaction.Deposit 0 0 5).client =
        some ((Account.new (Transaction.Deposit 0 0 5).client).process
          (.Deposit 0 0 5) TransactionProcessor.new.transactions).1.1) ∧
    ((TransactionProcessor.new.process (.Deposit 0 0 5)).2 = false →
      (TransactionProcessor.new.process (.Deposit 0 0 5)).1.accounts =
        TransactionProcessor.new.accounts) ∧
    (∀ c ts,
      (((TransactionProcessor.new.processAll ts).accounts c).isSome = true ↔
        someSuccessFor TransactionProcessor.new c ts)) :=
  fresh_account_commit TransactionProcessor.new (.Deposit 0 0 5) rfl

/-! ## C7: the meaning of `locked` -/

/-- C7 counterexample: after a chargeback locks client 0's account, a later
deposit still succeeds and changes the account's `available` — the code
never consults `locked`. -/
theorem locked_account_still_changes_cex :
    ((lockedState.accounts 0).map Account.locked = some true) ∧
    (lockedState.process (.Deposit 0 1 3)).2 = true ∧
    ((lockedState.process (.Deposit 0 1 3)).1.accounts 0).map
        Account.available ≠
      (lockedState.accounts 0).map Account.available := by
  refine ⟨rfl, rfl, ?_⟩
  have h1 : lockedState.accounts 0 =
      some { client := 0, available := 0 + 5 - 5, held := 0 + 5 - 5,
             locked := true } := rfl
  have h2 : (lockedState.process (.Deposit 0 1 3)).1.accounts 0 =
      some { client := 0, available := 0 + 5 - 5 + 3, held := 0 + 5 - 5,
             locked := true } := rfl
  rw [h1, h2]
  simp only [Option.map_some']
  intro h
  have := Option.some.inj h
  norm_num at this

/-- `Account::process` never clears `locked`: every branch either leaves it
alone or sets it to `true`. -/
theorem account_process_locked_mono (a : Account) (t : Transaction)
    (l : Ledger) (h : a.locked = true) : (a.process t l).1.1.locked = true := by
  cases t with
  | Deposit c tx amt =>
      simp only [Account.process, Account.deposit]
      split <;> simp [h]
  | Withdrawal c tx amt =>
      simp only [Account.process, Account.withdrawal]
      split <;> simp [h]
  | Dispute c tx =>
      cases hl : l tx with
      | none => simp [Account.process, hl, h]
      | some dep =>
          simp only [Account.process, hl]
          split <;> simp [Account.dispute, h]
  | Resolve c tx =>
      cases hd : dependentTransaction (.Resolve c tx) l with
      | none => simp [Account.process, hd, h]
      | some dep => simp [Account.process, hd, Account.resolve, h]
  | Chargeback c tx =>
      cases hd : dependentTransaction (.Chargeback c tx) l with
      | none => simp [Account.process, hd, h]
      | some dep => simp [Account.process, hd, Account.chargeback]

/-- One processing step keeps a locked account present and locked. -/
theorem step_locked_mono (p : TransactionProcessor) (c : Nat) (a : Account)
    (t : Transaction) (hp : p.accounts c = some a) (hl : a.locked = true) :
    ∃ a', (p.process t).1.accounts c = some a' ∧ a'.locked = true := by
  by_cases hc : c = t.client
  · subst hc
    refine ⟨(a.process t p.transactions).1.1, ?_,
      account_process_locked_mono a t p.transactions hl⟩
    simp [TransactionProcessor.process, hp]
  · cases hpt : p.accounts t.client with
    | some b =>
        refine ⟨a, ?_, hl⟩
        simp [TransactionProcessor.process, hpt, hc, hp]
    | none =>
        refine ⟨a, ?_, hl⟩
        by_cases hr : ((Account.new t.client).process t p.transactions).2 = true
        · simp [TransactionProcessor.process, hpt, hr, hc, hp]
        · simp only [Bool.not_eq_true] at hr
          simp [TransactionProcessor.process, hpt, hr, hc, hp]

/-- C7 amended: once an account's `locked` flag is true it stays true for
the rest of the run (it is never reset); however subsequent transactions
are still applied to the account and may change `available` and `held`,
because no processing path consults `locked`. -/
theorem locked_monotone (p : TransactionProcessor) (c : Nat) (a : Account)
    (ts : List Transaction) (hp : p.accounts c = some a)
    (hl : a.locked = true) :
    ∃ a', (p.processAll ts).accounts c = some a' ∧ a'.locked = true := by
  induction ts generalizing p a with
  | nil => exact ⟨a, hp, hl⟩
  | cons t ts ih =>
      obtain ⟨a', hp', hl'⟩ := step_locked_mono p c a t hp hl
      exact ih (p.process t).1 a' hp' hl'

/-- Witness for the amended C7: the locked account survives a further
deposit, still locked. -/
theorem locked_monotone_witness :
    ∃ a', (lockedState.processAll [.Deposit 0 1 3]).accounts 0 = some a' ∧
      a'.locked = true :=
  locked_monotone lockedState 0
    { client := 0, available := 0 + 5 - 5, held := 0 + 5 - 5, locked := true }
    [.Deposit 0 1 3] rfl rfl

/-! ## C4: a transaction id can be disputed at most once — unless the id
is redeposited -/

/-- C4 counterexample: tx 0 is successfully disputed twice in one stream —
a second deposit under the same tx id overwrites the ledger entry and
resets its dispute state to `Undisputed`. -/
theorem dispute_twice_cex :
    ((TransactionProcessor.new.process (.Deposit 0 0 5)).1.process
      (.Dispute 0 0)).2 = true ∧
    ((((TransactionProcessor.new.process (.Deposit 0 0 5)).1.process
      (.Dispute 0 0)).1.process (.Deposit 0 0 5)).1.process
      (.Dispute 0 0)).2 = true :=
  ⟨rfl, rfl⟩

/-- The ledger written by `Account::process` and the success flag only
depend on some account; which branch of the processor ran is irrelevant. -/
theorem processor_process_shape (p : TransactionProcessor) (t : Transaction) :
    ∃ a : Account,
      (p.process t).1.transactions = (a.process t p.transactions).1.2 ∧
      (p.process t).2 = (a.process t p.transactions).2 := by
  cases hp : p.accounts t.client with
  | some a =>
      refine ⟨a, ?_, ?_⟩ <;> simp [TransactionProcessor.process, hp]
  | none =>
      refine ⟨Account.new t.client, ?_, ?_⟩ <;>
        · simp only [TransactionProcessor.process, hp]
          split <;> rfl

/-- `Account::process` keeps a non-`Undisputed` ledger entry under `tx`
non-`Undisputed`, as long as the transaction is not a deposit reusing
`tx`. -/
theorem account_preserves_nonUndisputed (a : Account) (t : Transaction)
    (l : Ledger) (tx : Nat) (h : NonUndisputed l tx)
    (ht : ∀ c amt, t ≠ Transaction.Deposit c tx amt) :
    NonUndisputed (a.process t l).1.2 tx := by
  obtain ⟨e, he, hd⟩ := h
  cases t with
  | Deposit c txd amt =>
      have hne : ¬ tx = txd := fun hh => ht c amt (by rw [hh])
      exact ⟨e, by simp [Account.process, Ledger.insert, hne, he], hd⟩
  | Withdrawal c txd amt =>
      exact ⟨e, by simp [Account.process, he], hd⟩
  | Dispute c txd =>
      cases hl : l txd with
      | none => exact ⟨e, by simp [Account.process, hl, he], hd⟩
      | some dep =>
          simp only [Account.process, hl]
          split
          · exact ⟨e, he, hd⟩
          · by_cases htx : tx = txd
            · subst htx
              exact ⟨{ dep with disputed := DisputedState.Disputed },
                     by simp [Ledger.insert], by simp⟩
            · exact ⟨e, by simp [Ledger.insert, htx, he], hd⟩
  | Resolve c txd =>
      cases hdep : dependentTransaction (.Resolve c txd) l with
      | none => exact ⟨e, by simp [Account.process, hdep, he], hd⟩
      | some dep =>
          by_cases htx : tx = txd
          · subst htx
            exact ⟨{ dep with disputed := DisputedState.Resolved },
                   by simp [Account.process, hdep, Ledger.insert,
                     Transaction.tx], by simp⟩
          · exact ⟨e, by simp [Account.process, hdep, Ledger.insert,
              Transaction.tx, htx, he], hd⟩
  | Chargeback c txd =>
      cases hdep : dependentTransaction (.Chargeback c txd) l with
      | none => exact ⟨e, by simp [Account.process, hdep, he], hd⟩
      | some dep =>
          by_cases htx : tx = txd
          · subst htx
            exact ⟨{ dep with disputed := DisputedState.Chargebacked },
                   by simp [Account.process, hdep, Ledger.insert,
                     Transaction.tx], by simp⟩
          · exact ⟨e, by simp [Account.process, hdep, Ledger.insert,
              Transaction.tx, htx, he], hd⟩

/-- A dispute against a `tx` whose ledger entry is not `Undisputed`
fails. -/
theorem account_dispute_fails_nonUndisputed (a : Account) (l : Ledger)
    (c tx : Nat) (h : NonUndisputed l tx) :
    (a.process (.Dispute c tx) l).2 = false := by
  obtain ⟨e, he, hd⟩ := h
  simp only [Account.process, he]
  split
  · rfl
  · tauto

/-- Processor-level form of `account_preserves_nonUndisputed`. -/
theorem processor_preserves_nonUndisputed (p : TransactionProcessor)
    (t : Transaction) (tx : Nat) (h : NonUndisputed p.transactions tx)
    (ht : ∀ c amt, t ≠ Transaction.Deposit c tx amt) :
    NonUndisputed (p.process t).1.transactions tx := by
  obtain ⟨a, hl, _⟩ := processor_process_shape p t
  rw [hl]
  exact account_preserves_nonUndisputed a t p.transactions tx h ht

/-- Processor-level form of `account_dispute_fails_nonUndisputed`. -/
theorem processor_dispute_fails (p : TransactionProcessor) (c tx : Nat)
    (h : NonUndisputed p.transactions tx) :
    (p.process (.Dispute c tx)).2 = false := by
  obtain ⟨a, _, hr⟩ := processor_process_shape p (.Dispute c tx)
  rw [hr]
  exact account_dispute_fails_nonUndisputed a p.transactions c tx h

/-- While no deposit reuses `tx`, a non-`Undisputed` entry under `tx`
dooms every later dispute against `tx`. -/
theorem noDisputeSucceeds_of_nonUndisputed (tx : Nat)
    (ts : List Transaction) (hts : containsDepositTx tx ts = false) :
    ∀ p : TransactionProcessor, NonUndisputed p.transactions tx →
      noDisputeSucceeds p tx ts := by
  induction ts with
  | nil =>
      intro p _
      trivial
  | cons t ts ih =>
      intro p hp
      rw [containsDepositTx, List.any_cons, Bool.or_eq_false_iff] at hts
      have htno : ∀ c amt, t ≠ Transaction.Deposit c tx amt := by
        intro c amt heq
        subst heq
        simp at hts
      refine ⟨?_, ih hts.2 (p.process t).1
        (processor_preserves_nonUndisputed p t tx hp htno)⟩
      rintro ⟨c, rfl⟩
      exact processor_dispute_fails p c tx hp

/-- A successful dispute leaves the entry under `tx` marked `Disputed`,
hence non-`Undisputed`. -/
theorem account_dispute_success_marks (a : Account) (l : Ledger) (c tx : Nat)
    (h : (a.process (.Dispute c tx) l).2 = true) :
    NonUndisputed (a.process (.Dispute c tx) l).1.2 tx := by
  cases hl : l tx with
  | none =>
      revert h
      simp [Account.process, hl]
  | some dep =>
      revert h
      simp only [Account.process, hl]
      split
      · simp
      · intro _
        exact ⟨{ dep with disputed := DisputedState.Disputed },
               by simp [Ledger.insert], by simp⟩

/-- C4 amended: after one successful `Dispute(_, tx)`, every later
`Dispute` against the same `tx` fails — whatever client it carries — as
long as no later `Deposit` reuses the id `tx`; such a deposit overwrites
the ledger entry, resetting it to `Undisputed`, after which `tx` can be
disputed again. -/
theorem dispute_once_unless_redeposited (p : TransactionProcessor)
    (c tx : Nat) (ts : List Transaction)
    (hsucc : (p.process (.Dispute c tx)).2 = true)
    (hnodep : containsDepositTx tx ts = false) :
    noDisputeSucceeds (p.process (.Dispute c tx)).1 tx ts := by
  apply noDisputeSucceeds_of_nonUndisputed tx ts hnodep
  obtain ⟨a, hl, hr⟩ := processor_process_shape p (.Dispute c tx)
  rw [hl]
  exact account_dispute_success_marks a p.transactions c tx (hr ▸ hsucc)

/-- Witness for the amended C4 at a concrete stream. -/
theorem dispute_once_unless_redeposited_witness :
    noDisputeSucceeds (depositState.process (.Dispute 0 0)).1 0
      [Transaction.Dispute 0 0, Transaction.Resolve 0 0] :=
  dispute_once_unless_redeposited depositState 0 0
    [Transaction.Dispute 0 0, Transaction.Resolve 0 0] rfl rfl

/-! ## C9: available balance of deposit/withdrawal-only streams -/

/-- One deposit or withdrawal step changes client `c`'s available balance
by exactly its net contribution. -/
theorem step_availableOf (p : TransactionProcessor) (t : Transaction)
    (c : Nat) (ht : t.isDepositOrWithdrawal = true) :
    availableOf (p.process t).1 c =
      availableOf p c + netContribution c t (p.process t).2 := by
  cases t with
  | Dispute c' tx => simp [Transaction.isDepositOrWithdrawal] at ht
  | Resolve c' tx => simp [Transaction.isDepositOrWithdrawal] at ht
  | Chargeback c' tx => simp [Transaction.isDepositOrWithdrawal] at ht
  | Deposit cl tx amt =>
      by_cases hok : amt ≥ 0
      · cases hp : p.accounts cl with
        | some a =>
            by_cases hc : c = cl
            · subst hc
              simp [availableOf, netContribution, TransactionProcessor.process,
                Transaction.client, Account.process, Account.deposit, hp, hok]
            · have hc' : ¬ cl = c := fun h => hc h.symm
              simp [availableOf, netContribution, TransactionProcessor.process,
                Transaction.client, Account.process, Account.deposit, hp, hok,
                hc, hc']
        | none =>
            by_cases hc : c = cl
            · subst hc
              simp [availableOf, netContribution, TransactionProcessor.process,
                Transaction.client, Account.process, Account.deposit,
                Account.new, hp, hok]
            · have hc' : ¬ cl = c := fun h => hc h.symm
              simp [availableOf, netContribution, TransactionProcessor.process,
                Transaction.client, Account.process, Account.deposit,
                Account.new, hp, hok, hc, hc']
      · cases hp : p.accounts cl with
        | some a =>
            by_cases hc : c = cl
            · subst hc
              simp [availableOf, netContribution, TransactionProcessor.process,
                Transaction.client, Account.process, Account.deposit, hp, hok]
            · have hc' : ¬ cl = c := fun h => hc h.symm
              simp [availableOf, netContribution, TransactionProcessor.process,
                Transaction.client, Account.process, Account.deposit, hp, hok,
                hc, hc']
        | none =>
            by_cases hc : c = cl
            · subst hc
              simp [availableOf, netContribution, TransactionProcessor.process,
                Transaction.client, Account.process, Account.deposit,
                Account.new, hp, hok]
            · have hc' : ¬ cl = c := fun h => hc h.symm
              simp [availableOf, netContribution, TransactionProcessor.process,
                Transaction.client, Account.process, Account.deposit,
                Account.new, hp, hok, hc, hc']
  | Withdrawal cl tx amt =>
      cases hp : p.accounts cl with
      | some a =>
          by_cases hok : amt ≥ 0 ∧ a.available ≥ amt
          · by_cases hc : c = cl
            · subst hc
              simp [availableOf, netContribution, TransactionProcessor.process,
                Transaction.client, Account.process, Account.withdrawal, hp,
                hok, sub_eq_add_neg]
            · have hc' : ¬ cl = c := fun h => hc h.symm
              simp [availableOf, netContribution, TransactionProcessor.process,
                Transaction.client, Account.process, Account.withdrawal, hp,
                hok, hc, hc']
          · by_cases hc : c = cl
            · subst hc
              simp [availableOf, netContribution, TransactionProcessor.process,
                Transaction.client, Account.process, Account.withdrawal, hp,
                hok]
            · have hc' : ¬ cl = c := fun h => hc h.symm
              simp [availableOf, netContribution, TransactionProcessor.process,
                Transaction.client, Account.process, Account.withdrawal, hp,
                hok, hc, hc']
      | none =>
          by_cases hok : amt ≥ 0 ∧ (0:ℚ) ≥ amt
          · by_cases hc : c = cl
            · subst hc
              simp [availableOf, netContribution, TransactionProcessor.process,
                Transaction.client, Account.process, Account.withdrawal,
                Account.new, hp, hok, sub_eq_add_neg]
            · have hc' : ¬ cl = c := fun h => hc h.symm
              simp [availableOf, netContribution, TransactionProcessor.process,
                Transaction.client, Account.process, Account.withdrawal,
                Account.new, hp, hok, hc, hc']
          · by_cases hc : c = cl
            · subst hc
              simp [availableOf, netContribution, TransactionProcessor.process,
                Transaction.client, Account.process, Account.withdrawal,
                Account.new, hp, hok]
            · have hc' : ¬ cl = c := fun h => hc h.symm
              simp [availableOf, netContribution, TransactionProcessor.process,
                Transaction.client, Account.process, Account.withdrawal,
                Account.new, hp, hok, hc, hc']

/-- Replaying a deposit/withdrawal-only stream adds exactly the net of
successful amounts to each client's available balance. -/
theorem processAll_availableOf (c : Nat) :
    ∀ ts : List Transaction,
      (∀ t ∈ ts, t.isDepositOrWithdrawal = true) →
      ∀ p : TransactionProcessor,
        availableOf (p.processAll ts) c = availableOf p c + netFor p c ts := by
  intro ts
  induction ts with
  | nil =>
      intro _ p
      simp [TransactionProcessor.processAll, netFor]
  | cons t ts ih =>
      intro hts p
      have hh := hts t (List.mem_cons_self t ts)
      have hts' : ∀ t' ∈ ts, t'.isDepositOrWithdrawal = true :=
        fun t' h => hts t' (List.mem_cons_of_mem t h)
      simp only [TransactionProcessor.processAll, netFor]
      rw [ih hts', step_availableOf p t c hh]
      ring

/-- C9: for an input stream containing only deposits and withdrawals,
each client's final available balance equals the sum of the client's
successful deposit amounts minus the sum of its successful withdrawal
amounts. -/
theorem deposits_withdrawals_net (c : Nat) (ts : List Transaction)
    (hts : ∀ t ∈ ts, t.isDepositOrWithdrawal = true) :
    availableOf (TransactionProcessor.new.processAll ts) c =
      netFor TransactionProcessor.new c ts := by
  rw [processAll_availableOf c ts hts TransactionProcessor.new]
  simp [availableOf, TransactionProcessor.new]

/-- Witness for C9 at a concrete stream. -/
theorem deposits_withdrawals_net_witness :
    availableOf (TransactionProcessor.new.processAll
      [Transaction.Deposit 0 0 5, Transaction.Withdrawal 0 1 2]) 0 =
    netFor TransactionProcessor.new 0
      [Transaction.Deposit 0 0 5, Transaction.Withdrawal 0 1 2] :=
  deposits_withdrawals_net 0
    [Transaction.Deposit 0 0 5, Transaction.Withdrawal 0 1 2] (by decide)

end Payments
